import Mathlib

/-!
Verification development for the protog repository: a shallow embedding of
the `.proto`-to-`FileDescriptorSet` lowering pipeline of `main.go`
(`protoToFD`, `message`, `field`, `enum`, `reserved`, `enumValue`, `jsonStr`,
`readProtos`, `readProtosAndDeps`, `search`) and of two parser-level
constructs of `compiler/parser/parser.go` (the `Import` production and
`FQIdent`).

Modelling conventions:
- Go machine integers that are only stored, never computed with, become `Int`.
- Fallible Go functions returning `(T, error)` become `Except String T`
  carrying the exact error strings of the source.
- The parser AST consumed by `main.go` (package `foxygo.at/protog/parser`,
  whose own source is not in the repository snapshot; its shape is fixed by
  every access `main.go` performs on it) is embedded as sum types: the Go
  structs use at most one non-zero branch field per node, and the lowering
  discriminates branches by `!= nil` / `!= ""` tests in a fixed order, which
  the `match` arms below reproduce, including the fall-through-to-default
  behaviour for an empty `Syntax`/`Package`/`Import` string.
- Textual parsing of a `.proto` file is out of scope for the resolver claims:
  files are modelled as already-parsed entry lists, and the file system as an
  association list from full path to parsed content, so `parser.Parse` never
  fails in the model (its failure modes are not what any claim is about).
- Recursion in `readProtos` is unbounded in Go; it is embedded with an
  explicit fuel parameter. `none` means the recursion budget was exhausted;
  because the model has no other failure source, `∀ fuel, ... = none` says
  exactly that the Go recursion never completes.
-/

namespace Protog

/-- Scalar kinds of the parser (`parser.Scalar`, iota-ordered, `None = 0`). -/
inductive Scalar where
  | noneS
  | double
  | float
  | int32
  | int64
  | uint32
  | uint64
  | sint32
  | sint64
  | fixed32
  | fixed64
  | sfixed32
  | sfixed64
  | bool
  | string
  | bytes
deriving DecidableEq, Repr

/-- The iota value of a scalar, used by the `unknown scalar type: %d` error. -/
def Scalar.idx : Scalar → Nat
  | .noneS => 0
  | .double => 1
  | .float => 2
  | .int32 => 3
  | .int64 => 4
  | .uint32 => 5
  | .uint64 => 6
  | .sint32 => 7
  | .sint64 => 8
  | .fixed32 => 9
  | .fixed64 => 10
  | .sfixed32 => 11
  | .sfixed64 => 12
  | .bool => 13
  | .string => 14
  | .bytes => 15

/-- Wire types of `descriptorpb.FieldDescriptorProto_Type` (the ones the
lowering can produce). -/
inductive FieldType where
  | double
  | float
  | int32
  | int64
  | uint32
  | uint64
  | sint32
  | sint64
  | fixed32
  | fixed64
  | sfixed32
  | sfixed64
  | bool
  | string
  | bytes
  | message
deriving DecidableEq, Repr

/-- Labels of `descriptorpb.FieldDescriptorProto_Label`. -/
inductive Label where
  | optional
  | required
  | repeated
deriving DecidableEq, Repr

/-- Model of `parser.FQIdent` of `compiler/parser/parser.go`: a dotted identifier with
a fully-qualified (leading-dot) flag.  Strings are modelled as `List Char`;
`Parts` is a list of segments. -/
structure FQIdent where
  fullyQualified : Bool
  parts : List (List Char)
deriving DecidableEq, Repr

/-- Model of `parser.Type` of the AST consumed by `main.go`: a struct with a scalar
branch (`None` when the type is not scalar), an optional map branch
(`MapType` is flattened to its `(Key, Value)` pair) and an optional named
reference branch. -/
inductive PType where
  | mk (scalar : Scalar) (map : Option (Scalar × PType)) (reference : Option FQIdent)

/-- The scalar branch of a `parser.Type`. -/
def PType.scalar : PType → Scalar
  | .mk s _ _ => s

/-- Model of `parser.Direct`: type, name and tag of a direct (non-group) field. -/
structure PDirect where
  type : PType
  name : String
  tag : Int

/-- Model of `parser.Field`: cardinality flags plus the direct branch (`none` models a
nil `Direct`, e.g. a group field). -/
structure PField where
  optional : Bool
  required : Bool
  repeated : Bool
  direct : Option PDirect

/-- One item of `parser.Reserved.Reserved`: either a reserved name (`Ident`
non-empty) or a range with optional upper bound and `max` flag. -/
structure RItem where
  ident : String
  start : Int
  endV : Option Int
  max : Bool

/-- Model of `parser.Reserved`. -/
structure PReserved where
  reserved : List RItem

/-- Model of `parser.EnumValue` (options are never read by the lowering). -/
structure PEnumValue where
  key : String
  value : Int

/-- Model of `parser.EnumEntry`: the branches `enum` in `main.go` discriminates.
Branches whose payload the lowering never inspects carry none. `empty`
models an entry with no branch set, which hits the `default` arm. -/
inductive PEnumEntry where
  | value (v : PEnumValue)
  | option
  | reserved (r : PReserved)
  | empty

/-- Model of `parser.Enum`. -/
structure PEnum where
  name : String
  values : List PEnumEntry

/-- Model of `parser.MessageEntry`: the branches `message` in `main.go` discriminates.
Branches whose payload the lowering never inspects (options, nested
messages, oneofs, extends, reserved, extensions are all skipped by the
source) carry none. `empty` models an entry with no branch set. -/
inductive PMsgEntry where
  | enum (e : PEnum)
  | option
  | message
  | oneof
  | extend
  | reserved
  | extensions
  | field (f : PField)
  | empty

/-- Model of `parser.Message`. -/
structure PMessage where
  name : String
  entries : List PMsgEntry

/-- Model of `parser.Entry` at file level: the branches `protoToFD` discriminates with
its `switch` (`Syntax`, `Package`, `Import` are strings tested against `""`;
`Service`, `Option`, `Extend` payloads are never inspected). -/
inductive PEntry where
  | synE (s : String)
  | pkgE (s : String)
  | impE (s : String)
  | msgE (m : PMessage)
  | enumE (e : PEnum)
  | svcE
  | optE
  | extE

/-- Model of `parser.Proto` after `readProtos` assigned `Filename`. -/
structure Proto where
  filename : String
  entries : List PEntry

/-- Model of `descriptorpb.EnumValueDescriptorProto` (the fields the lowering sets). -/
structure EnumValueDescriptorProto where
  name : String
  number : Int
deriving DecidableEq, Repr

/-- Model of `descriptorpb.EnumDescriptorProto_EnumReservedRange`; the source always
sets both bounds, so they are plain values here. -/
structure EnumReservedRange where
  start : Int
  endV : Int
deriving DecidableEq, Repr

/-- Model of `descriptorpb.EnumDescriptorProto` (the fields the lowering sets). -/
structure EnumDescriptorProto where
  name : String
  value : List EnumValueDescriptorProto := []
  reservedRange : List EnumReservedRange := []
  reservedName : List String := []
deriving DecidableEq, Repr

/-- Model of `descriptorpb.FieldDescriptorProto` (the fields the lowering sets;
`typeName` stays `none` because the source never assigns `TypeName`). -/
structure FieldDescriptorProto where
  name : String
  number : Int
  jsonName : String
  type : FieldType
  label : Label
  typeName : Option String := none
deriving DecidableEq, Repr

/-- Model of `descriptorpb.DescriptorProto` (the fields the lowering sets; the source
never appends to `NestedType`). -/
structure DescriptorProto where
  name : String
  field : List FieldDescriptorProto := []
  enumType : List EnumDescriptorProto := []
deriving DecidableEq, Repr

/-- Model of `descriptorpb.FileDescriptorProto` (the fields the lowering sets). -/
structure FileDescriptorProto where
  name : String
  syntaxV : Option String := none
  pkg : Option String := none
  dependency : List String := []
  messageType : List DescriptorProto := []
  enumType : List EnumDescriptorProto := []

/-! ### `jsonStr` and its helpers

`jsonStr` in `main.go` is
`ToLower(ss[0]) + concat over ss[1:] of Title(ToLower(s))` where
`ss = strings.Split(s, "_")`.  `strings.Title` upper-titles every rune that
follows a separator (with the start of the string counting as following a
separator); Go's `isSeparator` classifies ASCII letters, digits and `_` as
non-separators and every other ASCII rune as a separator.  The claims only
concern ASCII identifier inputs, on which Lean's ASCII `Char.toUpper` /
`Char.toLower` agree with Go's unicode case mapping. -/

/-- Go `isSeparator` (ASCII branch): letters, digits and underscore are not
separators; every other ASCII rune is. -/
def goIsSeparator (c : Char) : Bool :=
  !(c.isAlphanum || c = '_')

/-- Go `strings.Title`'s per-rune state machine: a rune is title-cased
exactly when the previous rune is a separator. -/
def goTitleMap (prev : Char) : List Char → List Char
  | [] => []
  | c :: cs => (if goIsSeparator prev then c.toUpper else c) :: goTitleMap c cs

/-- Go `strings.Title` (initial previous rune is a space, a separator). -/
def goTitle (l : List Char) : List Char :=
  goTitleMap ' ' l

/-- Go `strings.ToLower` on a rune list (ASCII case mapping). -/
def goToLower (l : List Char) : List Char :=
  l.map Char.toLower

/-- Go `strings.Split(s, sep)` for a one-rune separator: the list of
(possibly empty) segments between occurrences of `sep`; never empty. -/
def splitOnChar (sep : Char) : List Char → List (List Char)
  | [] => [[]]
  | c :: cs =>
    match splitOnChar sep cs with
    | [] => [[]]
    | r :: rs => if c = sep then [] :: r :: rs else (c :: r) :: rs

/-- Function `jsonStr` of `main.go` on a rune list. -/
def jsonStrL (l : List Char) : List Char :=
  match splitOnChar '_' l with
  | [] => []
  | s0 :: rest => goToLower s0 ++ (rest.map (fun s => goTitle (goToLower s))).flatten

/-- Function `jsonStr` of `main.go`. -/
def jsonStr (s : String) : String :=
  String.mk (jsonStrL s.data)

/-- Modelled from the spec: json_name is the lower-camel-case of the source
name — "split on `_`, lowercase the first segment, capitalise the first
letter of subsequent segments, lowercase the rest" — with "capitalise the
first letter" read as upper-casing the segment's first character. -/
def lowerCamelSpecL (l : List Char) : List Char :=
  match splitOnChar '_' l with
  | [] => []
  | s0 :: rest =>
    s0.map Char.toLower ++
      (rest.map (fun s =>
        match s.map Char.toLower with
        | [] => []
        | c :: cs => c.toUpper :: cs)).flatten

/-- Modelled from the spec: string-level lower-camel-case. -/
def lowerCamelSpec (s : String) : String :=
  String.mk (lowerCamelSpecL s.data)

/-! ### The lowering (`main.go`) -/

/-- The `scalars` map of `main.go` (`parser.Scalar` to wire type); `None` has
no entry, so lookup of it fails, as in Go. -/
def scalars : Scalar → Option FieldType
  | .double => some .double
  | .float => some .float
  | .int32 => some .int32
  | .int64 => some .int64
  | .uint32 => some .uint32
  | .uint64 => some .uint64
  | .sint32 => some .sint32
  | .sint64 => some .sint64
  | .fixed32 => some .fixed32
  | .fixed64 => some .fixed64
  | .sfixed32 => some .sfixed32
  | .sfixed64 => some .sfixed64
  | .bool => some .bool
  | .string => some .string
  | .bytes => some .bytes
  | .noneS => none

/-- Function `field` of `main.go`: rejects non-direct fields and non-scalar types,
then builds the descriptor with the fixed `OPTIONAL` label. -/
def field (pf : PField) : Except String FieldDescriptorProto :=
  match pf.direct with
  | none => .error "non-direct not implemented"
  | some d =>
    if d.type.scalar = Scalar.noneS then .error "non-scalar not implemented"
    else
      match scalars d.type.scalar with
      | none => .error ("unknown scalar type: " ++ toString d.type.scalar.idx)
      | some fieldType =>
        .ok { name := d.name, number := d.tag, jsonName := jsonStr d.name,
              type := fieldType, label := Label.optional }

/-- Function `enumValue` of `main.go` (never fails; options are dropped). -/
def enumValue (pev : PEnumValue) : Except String EnumValueDescriptorProto :=
  .ok { name := pev.key, number := pev.value }

/-- The loop body of `reserved` in `main.go`: names go to `reservedNames`,
ranges get `End` defaulted to `Start`, then overridden by an explicit upper
bound, then overridden by `max` (2147483647).  The Go function's error
result is always nil, so the model returns a plain pair. -/
def reservedGo : List RItem → List EnumReservedRange × List String
  | [] => ([], [])
  | r :: rest =>
    let acc := reservedGo rest
    if r.ident ≠ "" then (acc.1, r.ident :: acc.2)
    else
      let er1 : EnumReservedRange := { start := r.start, endV := r.start }
      let er2 := match r.endV with
        | some e => { er1 with endV := e }
        | none => er1
      let er3 := if r.max then { er2 with endV := 2147483647 } else er2
      (er3 :: acc.1, acc.2)

/-- Function `reserved` of `main.go`. -/
def reserved (pr : PReserved) : List EnumReservedRange × List String :=
  reservedGo pr.reserved

/-- The loop of `enum` in `main.go` over `pe.Values`, threading the
descriptor being built. -/
def enumGo (e : EnumDescriptorProto) : List PEnumEntry → Except String EnumDescriptorProto
  | [] => .ok e
  | pev :: rest =>
    match pev with
    | .value v =>
      match enumValue v with
      | .error msg => .error msg
      | .ok ev => enumGo { e with value := e.value ++ [ev] } rest
    | .option => enumGo e rest
    | .reserved r =>
      let rn := reserved r
      enumGo { e with reservedRange := e.reservedRange ++ rn.1,
                      reservedName := e.reservedName ++ rn.2 } rest
    | .empty => .error "cannot interpret EnumEntry"

/-- Function `enum` of `main.go`. -/
def enum (pe : PEnum) : Except String EnumDescriptorProto :=
  enumGo { name := pe.name } pe.values

/-- The loop of `message` in `main.go` over `pm.Entries`: enums and fields
are lowered, every other branch is silently skipped, an entry with no branch
set hits the `default` error. -/
def messageGo (dp : DescriptorProto) : List PMsgEntry → Except String DescriptorProto
  | [] => .ok dp
  | e :: rest =>
    match e with
    | .enum pe =>
      match enum pe with
      | .error msg => .error msg
      | .ok et => messageGo { dp with enumType := dp.enumType ++ [et] } rest
    | .option => messageGo dp rest
    | .message => messageGo dp rest
    | .oneof => messageGo dp rest
    | .extend => messageGo dp rest
    | .reserved => messageGo dp rest
    | .extensions => messageGo dp rest
    | .field pf =>
      match field pf with
      | .error msg => .error msg
      | .ok df => messageGo { dp with field := dp.field ++ [df] } rest
    | .empty => .error "cannot interpret MessageEntry"

/-- Function `message` of `main.go`. -/
def message (pm : PMessage) : Except String DescriptorProto :=
  messageGo { name := pm.name } pm.entries

/-- The loop of `protoToFD` in `main.go` over `pp.Entries`: the `switch`
tests `Syntax != ""`, `Package != ""`, `Import != ""`, `Message != nil`,
`Enum != nil`, `Service`, `Option`, `Extend` in order; an entry matching no
case (including one whose string branch is empty) hits the `default` error. -/
def protoToFDGo (fd : FileDescriptorProto) : List PEntry → Except String FileDescriptorProto
  | [] => .ok fd
  | e :: rest =>
    match e with
    | .synE s =>
      if s = "" then .error "cannot interpret Entry"
      else
        match fd.syntaxV with
        | some _ => .error "found second syntax entries"
        | none => protoToFDGo { fd with syntaxV := some s } rest
    | .pkgE s =>
      if s = "" then .error "cannot interpret Entry"
      else
        match fd.pkg with
        | some _ => .error "found second Package entries"
        | none => protoToFDGo { fd with pkg := some s } rest
    | .impE s =>
      if s = "" then .error "cannot interpret Entry"
      else protoToFDGo { fd with dependency := fd.dependency ++ [s] } rest
    | .msgE m =>
      match message m with
      | .error msg => .error msg
      | .ok dm => protoToFDGo { fd with messageType := fd.messageType ++ [dm] } rest
    | .enumE pe =>
      match enum pe with
      | .error msg => .error msg
      | .ok de => protoToFDGo { fd with enumType := fd.enumType ++ [de] } rest
    | .svcE => protoToFDGo fd rest
    | .optE => protoToFDGo fd rest
    | .extE => protoToFDGo fd rest

/-- Function `protoToFD` of `main.go`. -/
def protoToFD (pp : Proto) : Except String FileDescriptorProto :=
  protoToFDGo { name := pp.filename } pp.entries

/-! ### The import resolver (`readProtos`, `readProtosAndDeps`, `search`)

The file system is an association list from full path to parsed file
content (an entry list); `search` probes the roots in order joining with
`/`, as `filepath.Join` does on clean paths.  The second component of a
result collects the lines `readProtos` prints to `os.Stderr`, in order. -/

/-- A parsed, readable file system: full path to parsed entries. -/
def FS := List (String × List PEntry)

/-- Path lookup in the modelled file system (`os.Open` succeeding or not). -/
def lookupFS : FS → String → Option (List PEntry)
  | [], _ => none
  | (p, f) :: rest, name => if p = name then some f else lookupFS rest name

/-- Function `search` of `main.go`: probe each import root in order; the first
openable `root/filename` wins. -/
def search (paths : List String) (fs : FS) (filename : String) : Option (List PEntry) :=
  match paths with
  | [] => none
  | pth :: rest =>
    match lookupFS fs (pth ++ "/" ++ filename) with
    | some f => some f
    | none => search rest fs filename

/-- The diagnostic `search` failure produces (Go:
`fmt.Errorf("cannot find %q on import paths", filename)`), as printed. -/
def searchErrMsg (filename : String) : String :=
  "cannot find \"" ++ filename ++ "\" on import paths"

/-- The import string of an entry as the `readProtos` loop sees it: the
loop skips every entry whose `Import` field is `""`, which includes all
non-import branches (their `Import` field is the zero value `""`). -/
def impOf : PEntry → Option String
  | .impE s => if s = "" then none else some s
  | _ => none

/-- The loop of `readProtos` over the entries of one parsed file,
parametrised by the recursive call `rec` (which `readProtos` makes at one
fuel less).  An unresolvable import prints a diagnostic and continues; a
failing recursive call aborts; otherwise the recursive result is appended
before the remaining imports' results. -/
def readImportsW (rec : List PEntry → String → Option (List Proto × List String))
    (paths : List String) (fs : FS) : List PEntry → Option (List Proto × List String)
  | [] => some ([], [])
  | e :: rest =>
    match impOf e with
    | none => readImportsW rec paths fs rest
    | some imp =>
      match search paths fs imp with
      | none =>
        match readImportsW rec paths fs rest with
        | none => none
        | some (ps, errs) => some (ps, searchErrMsg imp :: errs)
      | some f =>
        match rec f imp with
        | none => none
        | some (s, errs1) =>
          match readImportsW rec paths fs rest with
          | none => none
          | some (ps, errs2) => some (s ++ ps, errs1 ++ errs2)

/-- Function `readProtos` of `main.go` with an explicit recursion budget: process the
imports of the already-parsed `entries`, then append the file itself with
its `Filename` set.  `none` is fuel exhaustion only. -/
def readProtosF : Nat → List String → FS → List PEntry → String → Option (List Proto × List String)
  | 0, _, _, _, _ => none
  | Nat.succ n, paths, fs, entries, filename =>
    match readImportsW (readProtosF n paths fs) paths fs entries with
    | none => none
    | some (deps, errs) => some (deps ++ [⟨filename, entries⟩], errs)

/-- The deduplication loop of `readProtosAndDeps`: keep the first `Proto`
for each filename (`seen` is the set of filenames already kept). -/
def dedupFirst : List Proto → List String → List Proto
  | [], _ => []
  | p :: ps, seen =>
    if p.filename ∈ seen then dedupFirst ps seen
    else p :: dedupFirst ps (p.filename :: seen)

/-- Function `readProtosAndDeps` of `main.go` (fuelled): `readProtos` followed by
first-occurrence deduplication by filename. -/
def readProtosAndDepsF (n : Nat) (paths : List String) (fs : FS)
    (entries : List PEntry) (filename : String) : Option (List Proto × List String) :=
  match readProtosF n paths fs entries filename with
  | none => none
  | some (protos, errs) => some (dedupFirst protos [], errs)

/-! ### The `Import` production of `compiler/parser/parser.go`

The struct is `Import{ Public bool; Name string }` with grammar
`"import" ( @"public" )? @String ";"`.  Tokens are modelled as literal
tokens (identifiers, keywords, punctuation, matched by value, as participle
literals do) and string-literal tokens (matched by `@String`). -/

/-- A token as the `Import` production consumes it. -/
inductive Tok where
  | lit (s : String)
  | str (s : String)
deriving DecidableEq, Repr

/-- Model of `parser.Import` of `compiler/parser/parser.go`: the struct has exactly a
public flag and the path string (no weak flag). -/
structure Import where
  public : Bool
  name : String
deriving DecidableEq, Repr

/-- The `Import` production: `"import"`, then optionally the literal
`public`, then one string-literal token, then `";"`.  Returns the parsed
node and the remaining tokens, or `none` on a grammar mismatch. -/
def parseImport : List Tok → Option (Import × List Tok)
  | Tok.lit "import" :: rest =>
    match rest with
    | Tok.lit "public" :: Tok.str name :: Tok.lit ";" :: r =>
      some ({ public := true, name := name }, r)
    | Tok.str name :: Tok.lit ";" :: r =>
      some ({ public := false, name := name }, r)
    | _ => none
  | _ => none

/-! ### `FQIdent` construction and printing (`compiler/parser/parser.go`)

`NewFQIdentFromString` splits on `.`; a leading empty part means the ident
was fully qualified.  `String()` joins the parts with `.`, prefixing `.`
when fully qualified.  Strings are `List Char` here; `splitOnChar '.'` is
Go's `strings.Split(s, ".")` and `joinDot` is `strings.Join(parts, ".")`. -/

/-- Go `strings.Join(parts, ".")`. -/
def joinDot : List (List Char) → List Char
  | [] => []
  | [x] => x
  | x :: xs => x ++ '.' :: joinDot xs

/-- Function `NewFQIdentFromString` of `compiler/parser/parser.go` (`none` models the
nil result on an empty split, which Go can never take). -/
def NewFQIdentFromString (ident : List Char) : Option FQIdent :=
  let parts := splitOnChar '.' ident
  match parts with
  | [] => none
  | p0 :: rest =>
    if p0 = [] then some { fullyQualified := true, parts := rest }
    else some { fullyQualified := false, parts := p0 :: rest }

/-- The `String()` method of `parser.FQIdent`. -/
def FQIdent.toStr (fqi : FQIdent) : List Char :=
  (if fqi.fullyQualified then ['.'] else []) ++ joinDot fqi.parts

/-! ### Derived notions used by the theorems -/

/-- The import strings of a file's entries, in order, as the `readProtos`
loop visits them. -/
def impNames (es : List PEntry) : List String :=
  es.filterMap impOf

/-- The resolvable import strings of a file's entries: those `search` finds. -/
def rImps (paths : List String) (fs : FS) (es : List PEntry) : List String :=
  (impNames es).filter (fun d => (search paths fs d).isSome)

/-- Post-order invariant of a file list: every listed file's resolvable
imports name files that occur strictly earlier in the list (`seen` are the
filenames assumed to occur before the list). -/
def invA (paths : List String) (fs : FS) : List String → List Proto → Bool
  | _, [] => true
  | seen, f :: rest =>
    (rImps paths fs f.entries).all (fun d => seen.contains d)
      && invA paths fs (f.filename :: seen) rest

/-- Whether an entry is a syntax entry in the sense of `protoToFD`'s switch
(`e.Syntax != ""`). -/
def isSynEntry : PEntry → Bool
  | .synE s => s != ""
  | _ => false

/-- Whether an entry is a package entry in the sense of `protoToFD`'s switch
(`e.Package != ""`). -/
def isPkgEntry : PEntry → Bool
  | .pkgE s => s != ""
  | _ => false

/-- Number of syntax entries of a file. -/
def countSyn (es : List PEntry) : Nat :=
  (es.filter isSynEntry).length

/-- Number of package entries of a file. -/
def countPkg (es : List PEntry) : Nat :=
  (es.filter isPkgEntry).length

/-- A field the lowering can process: a direct field of plain scalar type. -/
def wfField (pf : PField) : Prop :=
  ∃ d, pf.direct = some d ∧ d.type.scalar ≠ Scalar.noneS

/-- An enum entry the lowering can process (everything but the branchless
`default` case). -/
def wfEnumEntry : PEnumEntry → Prop
  | .empty => False
  | _ => True

/-- An enum the lowering can process. -/
def wfEnum (pe : PEnum) : Prop :=
  ∀ ee ∈ pe.values, wfEnumEntry ee

/-- A message entry the lowering can process. -/
def wfMsgEntry : PMsgEntry → Prop
  | .field pf => wfField pf
  | .enum pe => wfEnum pe
  | .empty => False
  | _ => True

/-- A well-formed message: every entry is one the lowering can process. -/
def wfMessage (pm : PMessage) : Prop :=
  ∀ me ∈ pm.entries, wfMsgEntry me

/-- A file entry that is a (non-empty) syntax, package or import entry, or a
well-formed message entry. -/
def entryShape : PEntry → Prop
  | .synE s => s ≠ ""
  | .pkgE s => s ≠ ""
  | .impE s => s ≠ ""
  | .msgE m => wfMessage m
  | _ => False

/-- Two files importing each other through root `r`: the smallest
cyclic import graph. -/
def cycFS : FS :=
  [("r/a.proto", [PEntry.impE "b.proto"]), ("r/b.proto", [PEntry.impE "a.proto"])]

/-- A file system in which the entry file's own logical name `x.proto` is
also reachable through the import roots (as a different file): the entry
imports `a.proto`, which imports `x.proto`, which root `r` resolves to a
file with no imports. -/
def entryShadowFS : FS :=
  [("r/a.proto", [PEntry.impE "x.proto"]), ("r/x.proto", [])]

end Protog
namespace Protog

/-! ## Theorems -/

/-- Helper for C7: the loop of `reserved` emits, for every range item with the
`max` flag, a range whose upper bound is 2147483647, whatever `End` was. -/
lemma reservedGo_max_mem (l : List RItem) (r : RItem) (hmem : r ∈ l)
    (hid : r.ident = "") (hmax : r.max = true) :
    EnumReservedRange.mk r.start 2147483647 ∈ (reservedGo l).1 := by
  induction l with
  | nil => cases hmem
  | cons a t ih =>
    rcases List.mem_cons.mp hmem with heq | ht
    · subst heq
      rcases hEnd : r.endV with _ | e <;>
        simp [reservedGo, hid, hmax, hEnd]
    · have hmem2 := ih ht
      by_cases ha : a.ident = "" <;>
        rcases hEnd : a.endV with _ | e <;>
        by_cases hm : a.max <;>
        simp [reservedGo, ha, hm, hEnd, hmem2]

/-- Claim C7: for every enum reserved range written `N to max` (a range item
with empty `Ident` and the `max` flag set), the emitted reserved range has
start `N` and end exactly 2147483647, regardless of any other upper bound
parsed for that range. -/
theorem reserved_max_emits_intmax (pr : PReserved) (r : RItem)
    (hmem : r ∈ pr.reserved) (hid : r.ident = "") (hmax : r.max = true) :
    EnumReservedRange.mk r.start 2147483647 ∈ (reserved pr).1 :=
  reservedGo_max_mem pr.reserved r hmem hid hmax

/-- Claim C7 witness: `reserved 2 to max` with a stray parsed bound 999 still
emits `{start = 2, end = 2147483647}`. -/
theorem reserved_max_emits_intmax_witness :
    EnumReservedRange.mk 2 2147483647 ∈
      (reserved ⟨[⟨"", 2, some 999, true⟩]⟩).1 :=
  reserved_max_emits_intmax ⟨[⟨"", 2, some 999, true⟩]⟩ ⟨"", 2, some 999, true⟩
    (List.mem_singleton.mpr rfl) rfl rfl


/-- Helper: Go `strings.Split` never returns an empty slice. -/
lemma splitOnChar_ne_nil (sep : Char) (l : List Char) : splitOnChar sep l ≠ [] := by
  cases l with
  | nil => simp [splitOnChar]
  | cons c cs =>
    simp only [splitOnChar]
    rcases h : splitOnChar sep cs with _ | ⟨r, rs⟩
    · simp
    · split_ifs <;> simp

/-- Helper for C10: `joinDot` peels one leading rune off the first part. -/
lemma joinDot_cons_cons (c : Char) (r : List Char) (rs : List (List Char)) :
    joinDot ((c :: r) :: rs) = c :: joinDot (r :: rs) := by
  cases rs <;> rfl

/-- Helper: one unfolding step of `splitOnChar`. -/
lemma splitOnChar_cons (sep c : Char) (cs : List Char) (r : List Char)
    (rs : List (List Char)) (h : splitOnChar sep cs = r :: rs) :
    splitOnChar sep (c :: cs) = if c = sep then [] :: r :: rs else (c :: r) :: rs := by
  simp only [splitOnChar, h]

/-- Helper for C10: joining the dot-split of a string restores the string. -/
lemma joinDot_splitOnDot (l : List Char) : joinDot (splitOnChar '.' l) = l := by
  induction l with
  | nil => rfl
  | cons c cs ih =>
    rcases h : splitOnChar '.' cs with _ | ⟨r, rs⟩
    · exact absurd h (splitOnChar_ne_nil _ _)
    · rw [h] at ih
      rw [splitOnChar_cons '.' c cs r rs h]
      by_cases hc : c = '.'
      · subst hc
        rw [if_pos rfl]
        have hj : joinDot ([] :: r :: rs) = '.' :: joinDot (r :: rs) := rfl
        rw [hj, ih]
      · rw [if_neg hc, joinDot_cons_cons, ih]

/-- Claim C10: for every non-empty dotted identifier string (with or without
a leading dot, and in fact for every non-empty string), building an
`FQIdent` with `NewFQIdentFromString` and printing it with `String()` is the
identity. -/
theorem fqident_roundtrip (l : List Char) (h : l ≠ []) :
    (NewFQIdentFromString l).map FQIdent.toStr = some l := by
  obtain ⟨c, cs, rfl⟩ : ∃ c cs, l = c :: cs := by
    cases l with
    | nil => exact absurd rfl h
    | cons c cs => exact ⟨c, cs, rfl⟩
  have hsj : joinDot (splitOnChar '.' cs) = cs := joinDot_splitOnDot cs
  rcases hs : splitOnChar '.' cs with _ | ⟨r, rs⟩
  · exact absurd hs (splitOnChar_ne_nil _ _)
  · rw [hs] at hsj
    by_cases hc : c = '.'
    · subst hc
      simp only [NewFQIdentFromString, splitOnChar_cons '.' '.' cs r rs hs, if_pos rfl,
        Option.map_some, FQIdent.toStr]
      simp [FQIdent.toStr, hsj]
    · simp only [NewFQIdentFromString, splitOnChar_cons '.' c cs r rs hs, if_neg hc,
        Option.map_some, FQIdent.toStr]
      simp only [if_neg (by simp : ¬(c :: r = [])), Option.map_some]
      simp [FQIdent.toStr, joinDot_cons_cons, hsj]

/-- Claim C10 witness: the round trip at the concrete input `.a.b.c`. -/
theorem fqident_roundtrip_witness :
    (NewFQIdentFromString ".a.b.c".data).map FQIdent.toStr = some ".a.b.c".data :=
  fqident_roundtrip ".a.b.c".data (by decide)


/-- Claim C9 counterexample: the `Import` production of
`compiler/parser/parser.go` rejects `import weak "p";` - the optional
keyword slot of the grammar admits only `public`, so the claim that a weak
flag is recorded and `import weak` is tolerated is false on the code. -/
theorem parseImport_weak_rejected :
    parseImport [Tok.lit "import", Tok.lit "weak", Tok.str "p", Tok.lit ";"] = none := rfl

/-- Claim C9 (amended): a parsed import entry records exactly the logical
path string and a public flag (the `Import` struct has no weak field);
`import "p";` and `import public "p";` parse, and `import weak "p";` does
not (see the counterexample). -/
theorem parseImport_paths_and_public (p : String) (r : List Tok) :
    parseImport (Tok.lit "import" :: Tok.str p :: Tok.lit ";" :: r)
      = some ({ public := false, name := p }, r)
    ∧ parseImport (Tok.lit "import" :: Tok.lit "public" :: Tok.str p :: Tok.lit ";" :: r)
      = some ({ public := true, name := p }, r) :=
  ⟨rfl, rfl⟩

/-- Claim C9 witness: both accepted import forms at a concrete path. -/
theorem parseImport_paths_and_public_witness :
    parseImport [Tok.lit "import", Tok.str "foo/bar.proto", Tok.lit ";"]
      = some ({ public := false, name := "foo/bar.proto" }, [])
    ∧ parseImport [Tok.lit "import", Tok.lit "public", Tok.str "foo/bar.proto", Tok.lit ";"]
      = some ({ public := true, name := "foo/bar.proto" }, []) :=
  parseImport_paths_and_public "foo/bar.proto" []

/-- Claim C3 (amended): map fields are not lowered at all: for every field
whose type is not a plain scalar (`Scalar` is `None`, which covers `map<K,V>`
and named references), `field` fails with `non-scalar not implemented`, so
no synthetic `NameEntry` nested message is ever emitted. -/
theorem field_nonscalar_err (pf : PField) (d : PDirect) (hd : pf.direct = some d)
    (hs : d.type.scalar = Scalar.noneS) :
    field pf = Except.error "non-scalar not implemented" := by
  simp [field, hd, hs]

/-- Claim C3 counterexample: lowering `message M { map<string, int32> m = 7; }`
does not emit a synthetic `MEntry` nested message with `key`/`value` fields -
it fails with `non-scalar not implemented`. -/
theorem message_map_not_lowered :
    message ⟨"M", [PMsgEntry.field ⟨false, false, false,
        some ⟨PType.mk Scalar.noneS
          (some (Scalar.string, PType.mk Scalar.int32 none none)) none, "m", 7⟩⟩]⟩
      = Except.error "non-scalar not implemented" := rfl

/-- Claim C3 witness: the amended statement at the concrete map field. -/
theorem field_nonscalar_err_witness :
    field ⟨false, false, false,
        some ⟨PType.mk Scalar.noneS
          (some (Scalar.string, PType.mk Scalar.int32 none none)) none, "m", 7⟩⟩
      = Except.error "non-scalar not implemented" :=
  field_nonscalar_err _ _ rfl rfl

/-- Claim C4 (amended): every field the lowering emits carries label
`OPTIONAL`, regardless of the source cardinality - `field` in `main.go`
assigns the constant `LABEL_OPTIONAL` and never reads the
`optional`/`required`/`repeated` flags. -/
theorem field_label_const (pf : PField) (df : FieldDescriptorProto)
    (h : field pf = Except.ok df) : df.label = Label.optional := by
  rcases pf with ⟨po, pr, prep, dir⟩
  cases dir with
  | none => cases h
  | some d =>
    simp only [field] at h
    split at h
    · cases h
    · split at h
      · cases h
      · cases h
        rfl

/-- Claim C4 counterexample: a `repeated int32` field is lowered with label
`OPTIONAL`, not `REPEATED`, refuting the claimed cardinality mapping. -/
theorem field_repeated_label_cex :
    field ⟨false, false, true, some ⟨PType.mk Scalar.int32 none none, "xs", 1⟩⟩
      = Except.ok ⟨"xs", 1, "xs", FieldType.int32, Label.optional, none⟩
    ∧ Label.optional ≠ Label.repeated := ⟨rfl, by decide⟩

/-- Claim C4 witness: the amended statement at the concrete repeated field. -/
theorem field_label_const_witness :
    (⟨"xs", 1, "xs", FieldType.int32, Label.optional, none⟩ : FieldDescriptorProto).label
      = Label.optional :=
  field_label_const ⟨false, false, true, some ⟨PType.mk Scalar.int32 none none, "xs", 1⟩⟩ _ rfl


/-- Helper for C2: when every import of a file is unresolvable, the import
loop returns no dependency files and one diagnostic line per import. -/
lemma readImportsW_unresolved (rec : List PEntry → String → Option (List Proto × List String))
    (paths : List String) (fs : FS) :
    ∀ es, (∀ d ∈ impNames es, search paths fs d = none) →
      readImportsW rec paths fs es = some ([], (impNames es).map searchErrMsg) := by
  intro es
  induction es with
  | nil => intro _; rfl
  | cons e rest ih =>
    intro hun
    cases he : impOf e with
    | none =>
      have himp : impNames (e :: rest) = impNames rest := by
        simp [impNames, List.filterMap_cons, he]
      rw [himp] at hun
      simp only [readImportsW, he]
      rw [ih hun, himp]
    | some d =>
      have himp : impNames (e :: rest) = d :: impNames rest := by
        simp [impNames, List.filterMap_cons, he]
      have hd : search paths fs d = none := by
        refine hun d ?_
        rw [himp]
        exact List.mem_cons_self d _
      have hrest : ∀ d' ∈ impNames rest, search paths fs d' = none := by
        intro d' hd'
        refine hun d' ?_
        rw [himp]
        exact List.mem_cons_of_mem _ hd'
      simp only [readImportsW, he, hd]
      rw [ih hrest, himp]
      simp

/-- Helper for C2: a successful `protoToFD` records exactly the
file import strings (in order) as dependencies, after whatever was
accumulated. -/
lemma protoToFDGo_dep :
    ∀ (es : List PEntry) (fd out : FileDescriptorProto),
      protoToFDGo fd es = Except.ok out →
      out.dependency = fd.dependency ++ impNames es := by
  intro es
  induction es with
  | nil =>
    intro fd out h
    cases h
    simp [impNames]
  | cons e rest ih =>
    intro fd out h
    cases e with
    | synE s =>
      simp only [protoToFDGo] at h
      split at h
      · cases h
      · split at h
        · cases h
        · rw [ih _ _ h]
          simp [impNames, List.filterMap_cons, impOf]
    | pkgE s =>
      simp only [protoToFDGo] at h
      split at h
      · cases h
      · split at h
        · cases h
        · rw [ih _ _ h]
          simp [impNames, List.filterMap_cons, impOf]
    | impE s =>
      simp only [protoToFDGo] at h
      split at h
      · cases h
      · rename_i hs
        rw [ih _ _ h]
        simp [impNames, List.filterMap_cons, impOf, hs]
    | msgE m =>
      simp only [protoToFDGo] at h
      split at h
      · cases h
      · rw [ih _ _ h]
        simp [impNames, List.filterMap_cons, impOf]
    | enumE pe =>
      simp only [protoToFDGo] at h
      split at h
      · cases h
      · rw [ih _ _ h]
        simp [impNames, List.filterMap_cons, impOf]
    | svcE =>
      simp only [protoToFDGo] at h
      rw [ih _ _ h]
      simp [impNames, List.filterMap_cons, impOf]
    | optE =>
      simp only [protoToFDGo] at h
      rw [ih _ _ h]
      simp [impNames, List.filterMap_cons, impOf]
    | extE =>
      simp only [protoToFDGo] at h
      rw [ih _ _ h]
      simp [impNames, List.filterMap_cons, impOf]

/-- Claim C2: when no imported path of a file resolves against any search
root, `readProtos` still returns successfully - the file itself with one
diagnostic line per unresolved import (each line quoting the path) - and a
successful lowering of that file still lists every unresolved path in its
dependency list. -/
theorem readProtos_missing_import (n : Nat) (paths : List String) (fs : FS)
    (entries : List PEntry) (filename : String)
    (hun : ∀ d ∈ impNames entries, search paths fs d = none) :
    readProtosF (n + 1) paths fs entries filename
      = some ([⟨filename, entries⟩], (impNames entries).map searchErrMsg)
    ∧ ∀ fd, protoToFD ⟨filename, entries⟩ = Except.ok fd →
        ∀ d ∈ impNames entries, d ∈ fd.dependency := by
  constructor
  · simp only [readProtosF]
    rw [readImportsW_unresolved _ _ _ _ hun]
    simp
  · intro fd hfd d hd
    have hdep := protoToFDGo_dep entries _ fd hfd
    simp only [List.nil_append] at hdep
    rw [hdep]
    exact hd

/-- Claim C2 witness: the spec scenario - root `R1` only, `missing.proto`
nowhere - produces one diagnostic line containing `missing.proto`, a normal
result, and the dependency entry. -/
theorem readProtos_missing_import_witness :
    readProtosF 1 ["R1"] [] [PEntry.impE "missing.proto"] "entry.proto"
      = some ([⟨"entry.proto", [PEntry.impE "missing.proto"]⟩],
          ["cannot find \"missing.proto\" on import paths"])
    ∧ ∀ fd, protoToFD ⟨"entry.proto", [PEntry.impE "missing.proto"]⟩ = Except.ok fd →
        ∀ d ∈ impNames [PEntry.impE "missing.proto"], d ∈ fd.dependency :=
  readProtos_missing_import 0 ["R1"] [] [PEntry.impE "missing.proto"] "entry.proto"
    (by intro d hd; simp [impNames, impOf] at hd; subst hd; rfl)


/-- Helper for C6: every scalar other than `None` is in the `scalars` map. -/
lemma scalars_isSome_of_ne (s : Scalar) (h : s ≠ Scalar.noneS) :
    ∃ ft, scalars s = some ft := by
  cases s
  case noneS => exact absurd rfl h
  all_goals exact ⟨_, rfl⟩

/-- Helper for C6: well-formed fields lower successfully. -/
lemma field_ok_of_wf (pf : PField) (h : wfField pf) : ∃ df, field pf = Except.ok df := by
  obtain ⟨d, hd, hs⟩ := h
  obtain ⟨ft, hft⟩ := scalars_isSome_of_ne _ hs
  refine ⟨{ name := d.name, number := d.tag, jsonName := jsonStr d.name,
            type := ft, label := Label.optional }, ?_⟩
  simp [field, hd, hs, hft]

/-- Helper for C6: the enum loop succeeds on well-formed enum entries. -/
lemma enumGo_ok_of_wf :
    ∀ (vs : List PEnumEntry) (e : EnumDescriptorProto),
      (∀ ee ∈ vs, wfEnumEntry ee) → ∃ out, enumGo e vs = Except.ok out := by
  intro vs
  induction vs with
  | nil => intro e _; exact ⟨e, rfl⟩
  | cons v rest ih =>
    intro e hwf
    have hrest : ∀ ee ∈ rest, wfEnumEntry ee :=
      fun ee h => hwf ee (List.mem_cons_of_mem _ h)
    cases v with
    | value pv =>
      simp only [enumGo, enumValue]
      exact ih _ hrest
    | option =>
      simp only [enumGo]
      exact ih _ hrest
    | reserved r =>
      simp only [enumGo]
      exact ih _ hrest
    | empty =>
      exact absurd (hwf _ (List.mem_cons_self _ _)) (by simp [wfEnumEntry])

/-- Helper for C6: well-formed enums lower successfully. -/
lemma enum_ok_of_wf (pe : PEnum) (h : wfEnum pe) : ∃ de, enum pe = Except.ok de :=
  enumGo_ok_of_wf pe.values _ h

/-- Helper for C6: the message loop succeeds on well-formed entries. -/
lemma messageGo_ok_of_wf :
    ∀ (es : List PMsgEntry) (dp : DescriptorProto),
      (∀ me ∈ es, wfMsgEntry me) → ∃ out, messageGo dp es = Except.ok out := by
  intro es
  induction es with
  | nil => intro dp _; exact ⟨dp, rfl⟩
  | cons me rest ih =>
    intro dp hwf
    have hhead : wfMsgEntry me := hwf me (List.mem_cons_self _ _)
    have hrest : ∀ x ∈ rest, wfMsgEntry x :=
      fun x h => hwf x (List.mem_cons_of_mem _ h)
    cases me with
    | enum pe =>
      obtain ⟨de, hde⟩ := enum_ok_of_wf pe hhead
      simp only [messageGo, hde]
      exact ih _ hrest
    | field pf =>
      obtain ⟨df, hdf⟩ := field_ok_of_wf pf hhead
      simp only [messageGo, hdf]
      exact ih _ hrest
    | empty => exact absurd hhead (by simp [wfMsgEntry])
    | option => simp only [messageGo]; exact ih _ hrest
    | message => simp only [messageGo]; exact ih _ hrest
    | oneof => simp only [messageGo]; exact ih _ hrest
    | extend => simp only [messageGo]; exact ih _ hrest
    | reserved => simp only [messageGo]; exact ih _ hrest
    | extensions => simp only [messageGo]; exact ih _ hrest

/-- Helper for C6: well-formed messages lower successfully. -/
lemma message_ok_of_wf (pm : PMessage) (h : wfMessage pm) :
    ∃ dm, message pm = Except.ok dm :=
  messageGo_ok_of_wf pm.entries _ h

/-- Helper for C6: over shape-restricted entries, the `protoToFD` loop
succeeds exactly when the accumulated syntax and package counts stay at most
one. -/
lemma protoToFDGo_ok_iff :
    ∀ (es : List PEntry) (fd : FileDescriptorProto),
      (∀ e ∈ es, entryShape e) →
      ((∃ out, protoToFDGo fd es = Except.ok out) ↔
        countSyn es + (if fd.syntaxV.isSome then 1 else 0) ≤ 1
        ∧ countPkg es + (if fd.pkg.isSome then 1 else 0) ≤ 1) := by
  intro es
  induction es with
  | nil =>
    intro fd _
    constructor
    · intro _
      constructor <;> (simp [countSyn, countPkg]; split <;> omega)
    · intro _
      exact ⟨fd, rfl⟩
  | cons e rest ih =>
    intro fd hshape
    have hse : entryShape e := hshape e (List.mem_cons_self _ _)
    have hsrest : ∀ x ∈ rest, entryShape x :=
      fun x h => hshape x (List.mem_cons_of_mem _ h)
    cases e with
    | synE s =>
      have hs : s ≠ "" := hse
      have hc1 : countSyn (.synE s :: rest) = countSyn rest + 1 := by
        simp [countSyn, List.filter_cons, isSynEntry, hs]
      have hc2 : countPkg (.synE s :: rest) = countPkg rest := by
        simp [countPkg, List.filter_cons, isPkgEntry]
      simp only [protoToFDGo, if_neg hs]
      cases hsyn : fd.syntaxV with
      | some v =>
        constructor
        · rintro ⟨out, hout⟩
          cases hout
        · rintro ⟨h1, _⟩
          rw [hc1] at h1
          simp at h1
      | none =>
        have hmain := ih { fd with syntaxV := some s } hsrest
        rw [hc1, hc2]
        simpa using hmain
    | pkgE s =>
      have hs : s ≠ "" := hse
      have hc1 : countPkg (.pkgE s :: rest) = countPkg rest + 1 := by
        simp [countPkg, List.filter_cons, isPkgEntry, hs]
      have hc2 : countSyn (.pkgE s :: rest) = countSyn rest := by
        simp [countSyn, List.filter_cons, isSynEntry]
      simp only [protoToFDGo, if_neg hs]
      cases hpkg : fd.pkg with
      | some v =>
        constructor
        · rintro ⟨out, hout⟩
          cases hout
        · rintro ⟨_, h2⟩
          rw [hc1] at h2
          simp at h2
      | none =>
        have hmain := ih { fd with pkg := some s } hsrest
        rw [hc1, hc2]
        simpa using hmain
    | impE s =>
      have hs : s ≠ "" := hse
      have hc1 : countSyn (.impE s :: rest) = countSyn rest := by
        simp [countSyn, List.filter_cons, isSynEntry]
      have hc2 : countPkg (.impE s :: rest) = countPkg rest := by
        simp [countPkg, List.filter_cons, isPkgEntry]
      simp only [protoToFDGo, if_neg hs]
      rw [hc1, hc2]
      exact ih { fd with dependency := fd.dependency ++ [s] } hsrest
    | msgE m =>
      obtain ⟨dm, hdm⟩ := message_ok_of_wf m hse
      have hc1 : countSyn (.msgE m :: rest) = countSyn rest := by
        simp [countSyn, List.filter_cons, isSynEntry]
      have hc2 : countPkg (.msgE m :: rest) = countPkg rest := by
        simp [countPkg, List.filter_cons, isPkgEntry]
      simp only [protoToFDGo, hdm]
      rw [hc1, hc2]
      exact ih { fd with messageType := fd.messageType ++ [dm] } hsrest
    | enumE pe => exact absurd hse (by simp [entryShape])
    | svcE => exact absurd hse (by simp [entryShape])
    | optE => exact absurd hse (by simp [entryShape])
    | extE => exact absurd hse (by simp [entryShape])

/-- Claim C6: among files containing only (non-empty) syntax, package
and import entries and well-formed message entries, lowering a single file
fails if and only if the file has a second syntax entry or a second package
entry. -/
theorem protoToFD_err_iff_dup (pp : Proto)
    (hshape : ∀ e ∈ pp.entries, entryShape e) :
    (∃ msg, protoToFD pp = Except.error msg)
      ↔ 2 ≤ countSyn pp.entries ∨ 2 ≤ countPkg pp.entries := by
  have hok := protoToFDGo_ok_iff pp.entries { name := pp.filename } hshape
  simp only [Option.isSome_none, Bool.false_eq_true, if_neg, add_zero] at hok
  have hdisj : (∃ msg, protoToFD pp = Except.error msg)
      ↔ ¬ ∃ out, protoToFDGo { name := pp.filename } pp.entries = Except.ok out := by
    simp only [protoToFD]
    cases h : protoToFDGo { name := pp.filename } pp.entries <;> simp [h]
  rw [hdisj, hok]
  simp only [if_false]
  omega

/-- Claim C6 witness: a file with two syntax entries is rejected. -/
theorem protoToFD_err_iff_dup_witness :
    ∃ msg, protoToFD ⟨"f.proto", [PEntry.synE "proto3", PEntry.synE "proto3"]⟩
      = Except.error msg :=
  (protoToFD_err_iff_dup ⟨"f.proto", [PEntry.synE "proto3", PEntry.synE "proto3"]⟩
    (by
      intro e he
      simp only [List.mem_cons, List.mem_singleton] at he
      rcases he with h | h | h
      · subst h; simp [entryShape]
      · subst h; simp [entryShape]
      · cases h)).mpr (Or.inl (by decide))


/-- Helper for C8: ASCII lower-casing preserves alphanumericity. -/
lemma toLower_isAlphanum (c : Char) (h : c.isAlphanum = true) :
    c.toLower.isAlphanum = true := by
  simp only [Char.toLower]
  split
  · rename_i hr
    have hr' : 65 ≤ c.toNat ∧ c.toNat ≤ 90 := by
      simpa [Bool.and_eq_true, decide_eq_true_eq] using hr
    have hb : (Char.ofNat (c.toNat + 32)).val ≥ 97 ∧ (Char.ofNat (c.toNat + 32)).val ≤ 122 := by
      have hv : (c.toNat + 32).isValidChar := by
        left
        omega
      simp only [Char.ofNat, hv, dite_true, dif_pos, Char.ofNatAux]
      rw [ge_iff_le, UInt32.le_def, UInt32.le_def]
      simp only [BitVec.le_def, BitVec.toNat_ofNatLt]
      norm_num
      omega
    simp only [Char.isAlphanum, Char.isAlpha, Char.isLower, Char.isUpper, Bool.or_eq_true,
      Bool.and_eq_true, decide_eq_true_eq]
    exact Or.inl (Or.inr ⟨hb.1, hb.2⟩)
  · exact h

/-- Helper for C8: Go `strings.Title` changes nothing after a non-separator
when all remaining runes are non-separators. -/
lemma goTitleMap_id (l : List Char) :
    ∀ (p : Char), goIsSeparator p = false → (∀ c ∈ l, goIsSeparator c = false) →
      goTitleMap p l = l := by
  induction l with
  | nil => intro p _ _; rfl
  | cons c cs ih =>
    intro p hp hl
    simp only [goTitleMap]
    rw [if_neg (by simp [hp])]
    rw [ih c (hl c (List.mem_cons_self _ _)) (fun x hx => hl x (List.mem_cons_of_mem _ hx))]

/-- Helper for C8: on a separator-free word, Go `strings.Title` upper-cases
exactly the first rune. -/
lemma goTitle_cons (c : Char) (cs : List Char)
    (hl : ∀ x ∈ c :: cs, goIsSeparator x = false) :
    goTitle (c :: cs) = c.toUpper :: cs := by
  show goTitleMap ' ' (c :: cs) = c.toUpper :: cs
  simp only [goTitleMap]
  rw [if_pos (by decide)]
  rw [goTitleMap_id cs c (hl c (List.mem_cons_self _ _))
    (fun x hx => hl x (List.mem_cons_of_mem _ hx))]

/-- Helper for C8: runes of a split segment come from the input and are not
the separator. -/
lemma mem_splitOnChar (sep : Char) :
    ∀ (l : List Char) (seg : List Char), seg ∈ splitOnChar sep l →
      ∀ c ∈ seg, c ∈ l ∧ c ≠ sep := by
  intro l
  induction l with
  | nil =>
    intro seg hseg c hc
    simp [splitOnChar] at hseg
    subst hseg
    cases hc
  | cons a t ih =>
    intro seg hseg c hc
    rcases hsp : splitOnChar sep t with _ | ⟨r, rs⟩
    · exact absurd hsp (splitOnChar_ne_nil _ _)
    · rw [splitOnChar_cons sep a t r rs hsp] at hseg
      by_cases ha : a = sep
      · rw [if_pos ha] at hseg
        rcases List.mem_cons.mp hseg with h0 | hmem
        · subst h0
          cases hc
        · have hm := ih seg (by rw [hsp]; exact hmem) c hc
          exact ⟨List.mem_cons_of_mem _ hm.1, hm.2⟩
      · rw [if_neg ha] at hseg
        rcases List.mem_cons.mp hseg with h0 | hmem
        · subst h0
          rcases List.mem_cons.mp hc with hca | hcr
          · subst hca
            exact ⟨List.mem_cons_self _ _, ha⟩
          · have hm := ih r (by rw [hsp]; exact List.mem_cons_self _ _) c hcr
            exact ⟨List.mem_cons_of_mem _ hm.1, hm.2⟩
        · have hm := ih seg (by rw [hsp]; exact List.mem_cons_of_mem _ hmem) c hc
          exact ⟨List.mem_cons_of_mem _ hm.1, hm.2⟩

/-- Claim C8: on identifier names (alphanumeric and `_` runes, as field names
are), `jsonStr` computes exactly the spec's lower-camel-case - split on `_`,
lowercase the first segment, lowercase each later segment and capitalise its
first character - and `json_name` is a pure function of the source name. -/
theorem jsonStr_matches_spec (s : String)
    (h : ∀ c ∈ s.data, (c.isAlphanum || c = '_') = true) :
    jsonStr s = lowerCamelSpec s
    ∧ ∀ t : String, t = s → jsonStr t = jsonStr s := by
  refine ⟨?_, fun t ht => by rw [ht]⟩
  show String.mk (jsonStrL s.data) = String.mk (lowerCamelSpecL s.data)
  congr 1
  rcases hsp : splitOnChar '_' s.data with _ | ⟨s0, rest⟩
  · exact absurd hsp (splitOnChar_ne_nil _ _)
  · have hseg : ∀ seg ∈ rest, goTitle (goToLower seg)
        = match seg.map Char.toLower with | [] => [] | c :: cs => c.toUpper :: cs := by
      intro seg hsegmem
      have hsegsplit : seg ∈ splitOnChar '_' s.data := by
        rw [hsp]
        exact List.mem_cons_of_mem _ hsegmem
      have hchars : ∀ c ∈ seg.map Char.toLower, goIsSeparator c = false := by
        intro c hc
        obtain ⟨c0, hc0mem, rfl⟩ := List.mem_map.mp hc
        have hprop := mem_splitOnChar '_' s.data seg hsegsplit c0 hc0mem
        have halnum : c0.isAlphanum = true := by
          have := h c0 hprop.1
          rcases Bool.or_eq_true_iff.mp this with h1 | h1
          · exact h1
          · exact absurd (by simpa using h1) hprop.2
        have := toLower_isAlphanum c0 halnum
        simp [goIsSeparator, this]
      have hgl : goToLower seg = seg.map Char.toLower := rfl
      rw [hgl]
      rcases hm : seg.map Char.toLower with _ | ⟨c, cs⟩
      · rfl
      · rw [hm] at hchars
        show goTitle (c :: cs) = c.toUpper :: cs
        exact goTitle_cons c cs hchars
    simp only [jsonStrL, lowerCamelSpecL, hsp]
    rw [List.map_congr_left hseg]
    rfl

/-- Claim C8 witness: `foo_bar_baz` agrees with the spec algorithm. -/
theorem jsonStr_matches_spec_witness :
    jsonStr "foo_bar_baz" = lowerCamelSpec "foo_bar_baz"
    ∧ ∀ t : String, t = "foo_bar_baz" → jsonStr t = jsonStr "foo_bar_baz" :=
  jsonStr_matches_spec "foo_bar_baz" (by decide)


/-- Helper for C1: on the two-file cycle neither direction of `readProtos`
completes, whatever the recursion budget. -/
lemma cycle_readProtos_none (n : Nat) :
    readProtosF n ["r"] cycFS [PEntry.impE "b.proto"] "a.proto" = none
    ∧ readProtosF n ["r"] cycFS [PEntry.impE "a.proto"] "b.proto" = none := by
  induction n with
  | zero => exact ⟨rfl, rfl⟩
  | succ n ih =>
    constructor
    · show (match (match readProtosF n ["r"] cycFS [PEntry.impE "a.proto"] "b.proto" with
          | none => none
          | some (s, errs1) => some (s ++ ([] : List Proto), errs1 ++ ([] : List String))) with
        | none => none
        | some (deps, errs) =>
            some (deps ++ [⟨"a.proto", [PEntry.impE "b.proto"]⟩], errs)) = none
      rw [ih.2]
    · show (match (match readProtosF n ["r"] cycFS [PEntry.impE "b.proto"] "a.proto" with
          | none => none
          | some (s, errs1) => some (s ++ ([] : List Proto), errs1 ++ ([] : List String))) with
        | none => none
        | some (deps, errs) =>
            some (deps ++ [⟨"b.proto", [PEntry.impE "a.proto"]⟩], errs)) = none
      rw [ih.1]

/-- Claim C1 counterexample: `readProtos` does not terminate when two
files import each other - there is no recursion depth at which the traversal of
`a.proto` in `cycFS` returns, so it is false that a file already on the
traversal stack is skipped and both files are emitted exactly once. -/
theorem readProtos_cycle_never_completes :
    ¬ ∃ (n : Nat) (res : List Proto × List String),
        readProtosF n ["r"] cycFS [PEntry.impE "b.proto"] "a.proto" = some res := by
  rintro ⟨n, res, hres⟩
  rw [(cycle_readProtos_none n).1] at hres
  cases hres

/-- Claim C1 (amended): `readProtos` has no cycle handling: a file already
on the active traversal stack is recursed into again, so on a
two-file import cycle the resolve-and-parse operation never terminates and
emits nothing (every recursion budget is exhausted). -/
theorem readProtos_cycle_no_fuel_suffices (n : Nat) :
    readProtosF n ["r"] cycFS [PEntry.impE "b.proto"] "a.proto" = none :=
  (cycle_readProtos_none n).1

/-- Claim C1 witness: fuel 9 is exhausted on the cycle like any other. -/
theorem readProtos_cycle_no_fuel_suffices_witness :
    readProtosF 9 ["r"] cycFS [PEntry.impE "b.proto"] "a.proto" = none :=
  readProtos_cycle_no_fuel_suffices 9


/-- Helper for C5: the post-order invariant only inspects membership of
`seen`, so it is monotone in it. -/
lemma invA_mono (paths : List String) (fs : FS) :
    ∀ (l : List Proto) (seen seen' : List String),
      (∀ x ∈ seen, x ∈ seen') → invA paths fs seen l = true → invA paths fs seen' l = true := by
  intro l
  induction l with
  | nil => intro seen seen' _ _; rfl
  | cons f rest ih =>
    intro seen seen' hsub h
    simp only [invA, Bool.and_eq_true, List.all_eq_true] at h ⊢
    refine ⟨?_, ?_⟩
    · intro d hd
      have hmem := h.1 d hd
      rw [List.elem_iff] at hmem ⊢
      exact hsub _ hmem
    · refine ih _ _ ?_ h.2
      intro x hx
      rcases List.mem_cons.mp hx with rfl | hx'
      · exact List.mem_cons_self _ _
      · exact List.mem_cons_of_mem _ (hsub _ hx')

/-- Helper for C5: the post-order invariant composes over list append. -/
lemma invA_append (paths : List String) (fs : FS) :
    ∀ (xs ys : List Proto) (seen : List String),
      invA paths fs seen xs = true →
      invA paths fs (xs.map Proto.filename ++ seen) ys = true →
      invA paths fs seen (xs ++ ys) = true := by
  intro xs
  induction xs with
  | nil => intro ys seen _ hys; simpa using hys
  | cons x xs ih =>
    intro ys seen hx hys
    simp only [invA, Bool.and_eq_true] at hx ⊢
    refine ⟨hx.1, ?_⟩
    refine ih ys (x.filename :: seen) hx.2 ?_
    refine invA_mono paths fs ys _ _ ?_ hys
    intro t ht
    simp only [List.map_cons, List.cons_append, List.mem_cons, List.mem_append] at ht ⊢
    tauto

/-- Helper for C5: unfolding step of the import loop - non-import entry. -/
lemma readImportsW_cons_skip (rec : List PEntry → String → Option (List Proto × List String))
    (paths : List String) (fs : FS) (e : PEntry) (rest : List PEntry)
    (he : impOf e = none) :
    readImportsW rec paths fs (e :: rest) = readImportsW rec paths fs rest := by
  simp only [readImportsW, he]

/-- Helper for C5: unfolding step of the import loop - unresolvable import. -/
lemma readImportsW_cons_miss (rec : List PEntry → String → Option (List Proto × List String))
    (paths : List String) (fs : FS) (e : PEntry) (rest : List PEntry) (d : String)
    (he : impOf e = some d) (hse : search paths fs d = none) :
    readImportsW rec paths fs (e :: rest)
      = match readImportsW rec paths fs rest with
        | none => none
        | some (ps, errs) => some (ps, searchErrMsg d :: errs) := by
  simp only [readImportsW, he, hse]

/-- Helper for C5: unfolding step of the import loop - resolvable import. -/
lemma readImportsW_cons_hit (rec : List PEntry → String → Option (List Proto × List String))
    (paths : List String) (fs : FS) (e : PEntry) (rest : List PEntry) (d : String)
    (f : List PEntry) (he : impOf e = some d) (hse : search paths fs d = some f) :
    readImportsW rec paths fs (e :: rest)
      = match rec f d with
        | none => none
        | some (s, errs1) =>
          match readImportsW rec paths fs rest with
          | none => none
          | some (ps, errs2) => some (s ++ ps, errs1 ++ errs2) := by
  simp only [readImportsW, he, hse]

/-- Helper for C5: the import loop yields a post-ordered list that covers
every resolvable import of the processed entries. -/
lemma readImportsW_inv (rec : List PEntry → String → Option (List Proto × List String))
    (paths : List String) (fs : FS)
    (hrec : ∀ f imp L errs, rec f imp = some (L, errs) →
      invA paths fs [] L = true ∧ L.getLast? = some ⟨imp, f⟩) :
    ∀ (es : List PEntry) (L : List Proto) (errs : List String),
      readImportsW rec paths fs es = some (L, errs) →
      invA paths fs [] L = true
      ∧ ∀ d ∈ impNames es, (search paths fs d).isSome = true → d ∈ L.map Proto.filename := by
  intro es
  induction es with
  | nil =>
    intro L errs h
    cases h
    exact ⟨rfl, by simp [impNames]⟩
  | cons e rest ih =>
    intro L errs h
    cases he : impOf e with
    | none =>
      rw [readImportsW_cons_skip rec paths fs e rest he] at h
      have himp : impNames (e :: rest) = impNames rest := by
        simp [impNames, List.filterMap_cons, he]
      rw [himp]
      exact ih L errs h
    | some d =>
      have himp : impNames (e :: rest) = d :: impNames rest := by
        simp [impNames, List.filterMap_cons, he]
      cases hse : search paths fs d with
      | none =>
        rw [readImportsW_cons_miss rec paths fs e rest d he hse] at h
        cases hrest : readImportsW rec paths fs rest with
        | none => rw [hrest] at h; cases h
        | some pe =>
          obtain ⟨ps, errs2⟩ := pe
          rw [hrest] at h
          cases h
          obtain ⟨hinv, hcov⟩ := ih L errs2 hrest
          refine ⟨hinv, ?_⟩
          intro d' hd' hres
          rw [himp] at hd'
          rcases List.mem_cons.mp hd' with rfl | hmem
          · rw [hse] at hres
            cases hres
          · exact hcov d' hmem hres
      | some f =>
        rw [readImportsW_cons_hit rec paths fs e rest d f he hse] at h
        cases hrc : rec f d with
        | none => rw [hrc] at h; cases h
        | some p1 =>
          obtain ⟨s, errs1⟩ := p1
          rw [hrc] at h
          cases hrest : readImportsW rec paths fs rest with
          | none => rw [hrest] at h; cases h
          | some p2 =>
            obtain ⟨ps, errs2⟩ := p2
            rw [hrest] at h
            cases h
            obtain ⟨hinvS, hlast⟩ := hrec f d s errs1 hrc
            obtain ⟨hinvP, hcov⟩ := ih ps errs2 hrest
            constructor
            · refine invA_append paths fs s ps [] hinvS ?_
              refine invA_mono paths fs ps [] _ ?_ hinvP
              intro x hx
              cases hx
            · intro d' hd' hres
              rw [himp] at hd'
              rcases List.mem_cons.mp hd' with rfl | hmem
              · have hmemS : (⟨d', f⟩ : Proto) ∈ s := List.mem_of_mem_getLast? hlast
                simp only [List.map_append, List.mem_append]
                exact Or.inl (List.mem_map.mpr ⟨_, hmemS, rfl⟩)
              · simp only [List.map_append, List.mem_append]
                exact Or.inr (hcov d' hmem hres)

/-- Helper for C5: every completed `readProtos` run yields a post-ordered
list whose last element is the processed file itself. -/
lemma readProtosF_inv :
    ∀ (n : Nat) (paths : List String) (fs : FS) (entries : List PEntry)
      (filename : String) (L : List Proto) (errs : List String),
      readProtosF n paths fs entries filename = some (L, errs) →
      invA paths fs [] L = true ∧ L.getLast? = some ⟨filename, entries⟩ := by
  intro n
  induction n with
  | zero => intro paths fs entries filename L errs h; cases h
  | succ n ih =>
    intro paths fs entries filename L errs h
    simp only [readProtosF] at h
    cases hri : readImportsW (readProtosF n paths fs) paths fs entries with
    | none => rw [hri] at h; cases h
    | some p =>
      obtain ⟨deps, errs0⟩ := p
      rw [hri] at h
      cases h
      have hrec : ∀ f imp L' errs', readProtosF n paths fs f imp = some (L', errs') →
          invA paths fs [] L' = true ∧ L'.getLast? = some ⟨imp, f⟩ :=
        fun f imp L' errs' hh => ih paths fs f imp L' errs' hh
      obtain ⟨hinv, hcov⟩ :=
        readImportsW_inv (readProtosF n paths fs) paths fs hrec entries deps errs hri
      constructor
      · refine invA_append paths fs deps [⟨filename, entries⟩] [] hinv ?_
        simp only [invA, Bool.and_eq_true, List.all_eq_true]
        refine ⟨?_, trivial⟩
        intro d hd
        have hd' : d ∈ impNames entries ∧ (search paths fs d).isSome = true := by
          simpa [rImps, List.mem_filter] using hd
        have hmem := hcov d hd'.1 hd'.2
        rw [List.elem_iff]
        simpa using hmem
      · rw [List.getLast?_concat]

/-- Helper for C5: first-occurrence deduplication preserves the post-order
invariant (dropped occurrences have an earlier kept occurrence). -/
lemma dedupFirst_invA (paths : List String) (fs : FS) :
    ∀ (L : List Proto) (seen dseen ctx : List String),
      invA paths fs seen L = true →
      (∀ x ∈ seen, x ∈ ctx) → (∀ x ∈ dseen, x ∈ ctx) →
      invA paths fs ctx (dedupFirst L dseen) = true := by
  intro L
  induction L with
  | nil => intro seen dseen ctx _ _ _; rfl
  | cons f rest ih =>
    intro seen dseen ctx hinv hs hd
    simp only [invA, Bool.and_eq_true, List.all_eq_true] at hinv
    obtain ⟨hf, hrest⟩ := hinv
    simp only [dedupFirst]
    by_cases hmem : f.filename ∈ dseen
    · rw [if_pos hmem]
      refine ih (f.filename :: seen) dseen ctx hrest ?_ hd
      intro x hx
      rcases List.mem_cons.mp hx with rfl | hx'
      · exact hd _ hmem
      · exact hs _ hx'
    · rw [if_neg hmem]
      simp only [invA, Bool.and_eq_true, List.all_eq_true]
      constructor
      · intro d hdm
        have hmem2 := hf d hdm
        rw [List.elem_iff] at hmem2 ⊢
        exact hs _ hmem2
      · refine ih (f.filename :: seen) (f.filename :: dseen) (f.filename :: ctx) hrest ?_ ?_
        · intro x hx
          rcases List.mem_cons.mp hx with rfl | hx'
          · exact List.mem_cons_self _ _
          · exact List.mem_cons_of_mem _ (hs _ hx')
        · intro x hx
          rcases List.mem_cons.mp hx with rfl | hx'
          · exact List.mem_cons_self _ _
          · exact List.mem_cons_of_mem _ (hd _ hx')

/-- Helper for C5: deduplication yields pairwise-distinct filenames, none of
them in the drop set. -/
lemma dedupFirst_nodup :
    ∀ (L : List Proto) (dseen : List String),
      ((dedupFirst L dseen).map Proto.filename).Nodup
      ∧ ∀ x ∈ (dedupFirst L dseen).map Proto.filename, x ∉ dseen := by
  intro L
  induction L with
  | nil => intro dseen; exact ⟨List.nodup_nil, by simp [dedupFirst]⟩
  | cons f rest ih =>
    intro dseen
    simp only [dedupFirst]
    by_cases hmem : f.filename ∈ dseen
    · rw [if_pos hmem]
      exact ih dseen
    · rw [if_neg hmem]
      obtain ⟨hnd, hnot⟩ := ih (f.filename :: dseen)
      simp only [List.map_cons]
      constructor
      · refine List.nodup_cons.mpr ⟨?_, hnd⟩
        intro hcontra
        exact (hnot _ hcontra) (List.mem_cons_self _ _)
      · intro x hx
        rcases List.mem_cons.mp hx with rfl | hx'
        · exact hmem
        · intro hxd
          exact (hnot _ hx') (List.mem_cons_of_mem _ hxd)

/-- Helper for C5: a final element with a fresh filename survives
deduplication in final position. -/
lemma dedupFirst_concat :
    ∀ (L : List Proto) (dseen : List String) (x : Proto),
      x.filename ∉ dseen → x.filename ∉ L.map Proto.filename →
      dedupFirst (L ++ [x]) dseen = dedupFirst L dseen ++ [x] := by
  intro L
  induction L with
  | nil =>
    intro dseen x hxd _
    simp only [List.nil_append, dedupFirst]
    rw [if_neg hxd]
  | cons f rest ih =>
    intro dseen x hxd hxl
    simp only [List.cons_append, dedupFirst]
    have hxl' : x.filename ∉ rest.map Proto.filename := by
      intro hc
      exact hxl (by simp [hc])
    have hxf : x.filename ≠ f.filename := by
      intro hc
      exact hxl (by simp [hc])
    by_cases hmem : f.filename ∈ dseen
    · rw [if_pos hmem, if_pos hmem]
      exact ih dseen x hxd hxl'
    · have harg : x.filename ∉ f.filename :: dseen := by
        intro hc
        rcases List.mem_cons.mp hc with h1 | h1
        · exact hxf h1
        · exact hxd h1
      rw [if_neg hmem, if_neg hmem]
      simp only [List.append_eq]
      rw [ih (f.filename :: dseen) x harg hxl']
      simp

/-- Claim C5 (amended): every completed `readProtosAndDeps` run returns the
deduplicated traversal with pairwise-distinct filenames, in post-order
(every resolvable import of a listed file names an earlier element, which is
what `invA` with an empty prefix states), and the entry file is last
provided the entry's filename does not occur among the files read for its
imports; otherwise first-occurrence deduplication drops the entry's own
parse (see the counterexample). -/
theorem readProtosAndDeps_order (n : Nat) (paths : List String) (fs : FS)
    (entries : List PEntry) (filename : String) (L : List Proto) (errs : List String)
    (hrun : readProtosF n paths fs entries filename = some (L, errs)) :
    readProtosAndDepsF n paths fs entries filename = some (dedupFirst L [], errs)
    ∧ ((dedupFirst L []).map Proto.filename).Nodup
    ∧ invA paths fs [] (dedupFirst L []) = true
    ∧ (filename ∉ L.dropLast.map Proto.filename →
        (dedupFirst L []).getLast? = some ⟨filename, entries⟩) := by
  obtain ⟨hinv, hlast⟩ := readProtosF_inv n paths fs entries filename L errs hrun
  refine ⟨?_, (dedupFirst_nodup L []).1, ?_, ?_⟩
  · simp only [readProtosAndDepsF, hrun]
  · exact dedupFirst_invA paths fs L [] [] [] hinv
      (by intro x hx; cases hx) (by intro x hx; cases hx)
  · intro hnot
    have hne : L ≠ [] := by
      intro hc
      rw [hc] at hlast
      cases hlast
    have hgl : L.getLast hne = ⟨filename, entries⟩ := by
      have heq := List.getLast?_eq_getLast L hne
      rw [heq] at hlast
      exact Option.some.inj hlast
    have hL : L = L.dropLast ++ [⟨filename, entries⟩] := by
      calc L = L.dropLast ++ [L.getLast hne] := (List.dropLast_append_getLast hne).symm
        _ = L.dropLast ++ [⟨filename, entries⟩] := by rw [hgl]
    rw [hL, dedupFirst_concat L.dropLast [] ⟨filename, entries⟩ (by intro hc; cases hc) hnot]
    rw [List.getLast?_concat]

/-- Claim C5 witness: a one-import run - the dependency precedes the entry
file, which is last, and filenames are distinct. -/
theorem readProtosAndDeps_order_witness :
    readProtosAndDepsF 2 ["r"] [("r/b.proto", [])] [PEntry.impE "b.proto"] "a.proto"
      = some (dedupFirst [⟨"b.proto", []⟩, ⟨"a.proto", [PEntry.impE "b.proto"]⟩] [], [])
    ∧ ((dedupFirst [⟨"b.proto", []⟩, ⟨"a.proto", [PEntry.impE "b.proto"]⟩] []).map
        Proto.filename).Nodup
    ∧ invA ["r"] [("r/b.proto", [])] []
        (dedupFirst [⟨"b.proto", []⟩, ⟨"a.proto", [PEntry.impE "b.proto"]⟩] []) = true
    ∧ ("a.proto" ∉ ([⟨"b.proto", []⟩, ⟨"a.proto", [PEntry.impE "b.proto"]⟩] : List Proto).dropLast.map Proto.filename →
        (dedupFirst [⟨"b.proto", []⟩, ⟨"a.proto", [PEntry.impE "b.proto"]⟩] []).getLast?
          = some ⟨"a.proto", [PEntry.impE "b.proto"]⟩) :=
  readProtosAndDeps_order 2 ["r"] [("r/b.proto", [])] [PEntry.impE "b.proto"] "a.proto"
    [⟨"b.proto", []⟩, ⟨"a.proto", [PEntry.impE "b.proto"]⟩] [] rfl

/-- Claim C5 counterexample: with `entryShadowFS`, the entry file `x.proto`
(whose content imports `a.proto`) is dropped by first-occurrence
deduplication because `a.proto` imports the name `x.proto`, which resolves
to a different file; the returned list ends with `a.proto`, not with the
entry file, refuting "with the entry file last". -/
theorem readProtosAndDeps_entry_not_last :
    readProtosAndDepsF 5 ["r"] entryShadowFS [PEntry.impE "a.proto"] "x.proto"
      = some ([⟨"x.proto", []⟩, ⟨"a.proto", [PEntry.impE "x.proto"]⟩], [])
    ∧ (([⟨"x.proto", ([] : List PEntry)⟩, ⟨"a.proto", [PEntry.impE "x.proto"]⟩] :
          List Proto).getLast?).map Proto.filename ≠ some "x.proto" := by
  constructor
  · rfl
  · decide

end Protog
